import Mathlib

/-!
A shallow embedding of the NeuraOS hybrid memory retrieval engine
(from the repository files handling the memory graph and the embedding
engine), together with theorems settling the specification claims about
deduplication, chunking, the embedding cache policy, embedding fallback,
hybrid recall and reciprocal rank fusion.

Python strings are modelled as `List Char`, floats as `ℚ`, SQLite rows as
a list of records, insertion-ordered dictionaries as association lists,
and network calls as explicit response parameters.
-/

namespace NeuraOS

/-! ### Python string helpers -/

/-- Character class stripped by Python `str.strip()`. -/
def pyIsSpace (c : Char) : Bool :=
  c = ' ' || c = '\t' || c = '\n' || c = '\r' || c = '\x0b' || c = '\x0c'

/-- Python `str.strip()`: remove leading and trailing whitespace. -/
def pyStrip (s : List Char) : List Char :=
  ((s.dropWhile pyIsSpace).reverse.dropWhile pyIsSpace).reverse

/-- Python `s[-k:]` for a natural `k`: the last `k` characters, or the
whole string when `k = 0` (Python `-0` is `0`). -/
def pyLastChars (k : Nat) (s : List Char) : List Char :=
  if k = 0 then s else s.drop (s.length - k)

/-- Python `content.split(sep)` on the two-character separator used by the
chunker: scan left to right, splitting at each non-overlapping occurrence
of two consecutive newlines, accumulating the current piece in `acc`. -/
def splitParasAux : List Char → List Char → List (List Char)
  | [], acc => [acc.reverse]
  | [c], acc => [(c :: acc).reverse]
  | c1 :: c2 :: rest, acc =>
    if c1 = '\n' ∧ c2 = '\n' then
      acc.reverse :: splitParasAux rest []
    else
      splitParasAux (c2 :: rest) (c1 :: acc)

/-- Python `content.split(two newlines)`. -/
def pySplitParas (content : List Char) : List (List Char) :=
  splitParasAux content []

/-- Whether the text contains two consecutive newlines (a paragraph
boundary in the chunker's sense). -/
def hasParaSep : List Char → Bool
  | c1 :: c2 :: rest =>
    if c1 = '\n' ∧ c2 = '\n' then true else hasParaSep (c2 :: rest)
  | _ => false

/-! ### Chunker -/

/-- Sliding-window loop of the chunker for one long continuous paragraph:
`while i < len(text): chunks.append(text[i:i+size]); i += size - overlap`.
The fuel argument bounds the number of iterations; `text.length`
iterations always suffice when the step is positive (with a non-positive
step the Python loop would not terminate). -/
def slidingChunksFuel (size step : Nat) : Nat → List Char → List (List Char)
  | 0, _ => []
  | _, [] => []
  | fuel + 1, c :: rest =>
    ((c :: rest).take size) :: slidingChunksFuel size step fuel ((c :: rest).drop step)

/-- Sliding-window chunking with window `size` advancing by
`size - overlap`. -/
def slidingChunks (size overlap : Nat) (text : List Char) : List (List Char) :=
  slidingChunksFuel size (size - overlap) text.length text

/-- Paragraph-packing loop of the chunker: accumulate paragraphs (each
with its two-newline separator re-appended) into `current` while the next
paragraph still fits under `size`, flushing `current.strip()` whenever it
does not, and flushing the final accumulator. -/
def packParasAux (size : Nat) : List Char → List (List Char) → List (List Char)
  | current, [] => if current = [] then [] else [pyStrip current]
  | current, para :: rest =>
    if current.length + para.length < size then
      packParasAux size (current ++ para ++ ['\n', '\n']) rest
    else
      (if current = [] then [] else [pyStrip current]) ++
        packParasAux size (para ++ ['\n', '\n']) rest

/-- Overlap pass of the chunker: when there is more than one chunk, each
chunk after the first is prefixed with the last `overlap` characters of
the previous (pre-overlap) chunk, joined with a single space. -/
def addOverlap (overlap : Nat) (chunks : List (List Char)) : List (List Char) :=
  if 1 < chunks.length then
    ((none :: chunks.map some).zip chunks).map fun pc =>
      match pc.1 with
      | none => pc.2
      | some prev =>
        (if overlap < prev.length then pyLastChars overlap prev else prev) ++ [' '] ++ pc.2
  else chunks

/-- Transcription of the memory graph's `_chunk_content`: a single chunk
when the content fits, the sliding window for one long continuous
paragraph, and otherwise paragraph packing followed by the overlap pass. -/
def chunkContent (size overlap : Nat) (content : List Char) : List (List Char) :=
  if content.length ≤ size then [content]
  else
    let paragraphs := pySplitParas content
    if paragraphs.length = 1 ∧ size < paragraphs.headI.length then
      slidingChunks size overlap paragraphs.headI
    else
      addOverlap overlap (packParasAux size [] paragraphs)

/-- Reconstruction procedure named by the specification: drop each chunk's
leading `overlap`-character prefix (every chunk except the first) and
concatenate the remainders in order. -/
def reconstruct (overlap : Nat) : List (List Char) → List Char
  | [] => []
  | c :: rest => c ++ (rest.map (List.drop overlap)).flatten

/-- Erase all whitespace; two strings that differ only in whitespace agree
after this map. -/
def eraseWs (s : List Char) : List Char := s.filter (fun c => !pyIsSpace c)

/-! ### Insertion-ordered dictionaries (Python `dict`) -/

section Dict
variable {κ β : Type} [DecidableEq κ]

/-- Python `k in d`. -/
def dictContains (m : List (κ × β)) (k : κ) : Bool :=
  m.any (fun p => p.1 == k)

/-- Python `d[k]`, as an option. -/
def dictFind? (m : List (κ × β)) (k : κ) : Option β :=
  (m.find? (fun p => p.1 == k)).map Prod.snd

/-- Python `d.get(k, fallback)`. -/
def dictGetD (m : List (κ × β)) (k : κ) (d : β) : β :=
  (dictFind? m k).getD d

/-- Python `d[k] = v` on an insertion-ordered dictionary: update in place
when the key exists, append otherwise. -/
def dictSet (m : List (κ × β)) (k : κ) (v : β) : List (κ × β) :=
  if dictContains m k then m.map (fun p => if p.1 == k then (k, v) else p)
  else m ++ [(k, v)]

/-- Python `del d[k]`. -/
def dictErase (m : List (κ × β)) (k : κ) : List (κ × β) :=
  m.filter (fun p => p.1 != k)

end Dict

/-! ### Data model -/

inductive MemoryType where
  | note
  | conversation
  | observation
  | thought
  | decision
  | learning
deriving DecidableEq, Repr

structure ChunkMeta where
  parent_id : String
  chunk_index : Nat
  total_chunks : Nat
deriving DecidableEq, Repr

structure MemoryEntry where
  id : String
  content : List Char
  content_hash : String
  metadata : List (String × String)
  timestamp : Nat
  memory_type : MemoryType
  embedding_model : Option String
deriving DecidableEq, Repr

/-- A row of the SQLite `memories` table (the FTS index mirrors it through
triggers, so one list of rows models both). -/
structure MemRow where
  id : String
  content : List Char
  content_hash : String
  metadata : List (String × String)
  chunkMeta : Option ChunkMeta
  timestamp : Nat
  mtype : MemoryType
  embedding_model : Option String
deriving DecidableEq, Repr

structure GraphState where
  rows : List MemRow
deriving DecidableEq, Repr

def rowToEntry (r : MemRow) : MemoryEntry :=
  ⟨r.id, r.content, r.content_hash, r.metadata, r.timestamp, r.mtype, r.embedding_model⟩

/-! ### Store and delete -/

/-- Chunk row id: `memory_id + "_chunk" + i` when there is more than one
chunk, the memory id itself otherwise. -/
def chunkIdOf (memId : String) (n i : Nat) : String :=
  if 1 < n then memId ++ "_chunk" ++ toString i else memId

/-- Rows inserted by `store` for the chunks of a new entry: the first
chunk carries the hash of the whole content, later chunks the hash of
their own text. -/
def chunkRowsOf (hash : List Char → String) (embModel : String) (memId : String)
    (contentHash : String) (metadata : List (String × String)) (now : Nat)
    (mtype : MemoryType) (chunks : List (List Char)) : List MemRow :=
  chunks.enum.map fun p =>
    { id := chunkIdOf memId chunks.length p.1
      content := p.2
      content_hash := if p.1 = 0 then contentHash else hash p.2
      metadata := metadata
      chunkMeta := if 1 < chunks.length then some ⟨memId, p.1, chunks.length⟩ else none
      timestamp := now
      mtype := mtype
      embedding_model := some embModel }

/-- A single row insert; the UNIQUE constraint on `content_hash` and the
primary key on `id` make a duplicate an integrity error. -/
def insertRow (st : GraphState) (r : MemRow) : Option GraphState :=
  if st.rows.any (fun q => q.content_hash == r.content_hash || q.id == r.id) then none
  else some ⟨st.rows ++ [r]⟩

def insertRows (st : GraphState) : List MemRow → Option GraphState
  | [] => some st
  | r :: rs =>
    match insertRow st r with
    | none => none
    | some st' => insertRows st' rs

/-- Transcription of the memory graph's `get_by_hash`. -/
def getByHash (st : GraphState) (h : String) : Option MemoryEntry :=
  (st.rows.find? (fun r => r.content_hash == h)).map rowToEntry

/-- Transcription of the memory graph's `store` (SQLite side; the
embedding and vector-index writes are non-fatal side effects that affect
neither the returned entry nor the row table). The content hash function,
the fresh memory id and the current time are explicit parameters. When the
hash is already present the existing row's timestamp is refreshed and the
existing entry, as read before the refresh, is returned. -/
def storeMem (hash : List Char → String) (size overlap : Nat) (embModel : String)
    (st : GraphState) (freshId : String) (now : Nat)
    (content : List Char) (metadata : List (String × String)) (mtype : MemoryType) :
    Except String (MemoryEntry × GraphState) :=
  let contentHash := hash content
  match st.rows.find? (fun r => r.content_hash == contentHash) with
  | some existing =>
    .ok (rowToEntry existing,
      ⟨st.rows.map fun r =>
        if r.content_hash == contentHash then { r with timestamp := now } else r⟩)
  | none =>
    let chunks := if size < content.length then chunkContent size overlap content else [content]
    match insertRows st (chunkRowsOf hash embModel freshId contentHash metadata now mtype chunks) with
    | none => .error "Database integrity error"
    | some st' =>
      .ok ({ id := freshId, content := content, content_hash := contentHash,
             metadata := metadata, timestamp := now, memory_type := mtype,
             embedding_model := some embModel }, st')

/-- Transcription of the memory graph's `delete`: the Qdrant delete error
is swallowed (logged only), the SQLite delete removes any row with the id
(the FTS index follows by trigger) without checking that one existed, and
the returned value is `true` whenever the SQLite operations do not raise. -/
def deleteMem (st : GraphState) (qdrantAvailable : Bool)
    (qdrantRaw : Except String Unit) (sqliteRaw : Except String Unit)
    (memId : String) : Except String Bool × GraphState :=
  match sqliteRaw with
  | .error e => (.error ("Failed to delete memory: " ++ e), st)
  | .ok _ => (.ok true, ⟨st.rows.filter (fun r => r.id != memId)⟩)

/-! ### Reciprocal rank fusion -/

abbrev ScoreMap := List (String × ℚ)
abbrev EntryMap := List (String × MemoryEntry)

/-- Accumulation loop of `_reciprocal_rank_fusion` over one ranked list:
`for rank, (entry, _) in enumerate(results): scores[id] = scores.get(id, 0)
+ 1/(rank + k); entries[id] = entry`, with the enumeration counter made an
explicit argument. -/
def rrfProcess (kconst : Nat) : Nat → List (MemoryEntry × ℚ) → ScoreMap × EntryMap → ScoreMap × EntryMap
  | _, [], acc => acc
  | rank, (entry, _) :: rest, (scores, entries) =>
    let rrfScore : ℚ := 1 / ((rank : ℚ) + (kconst : ℚ))
    rrfProcess kconst (rank + 1) rest
      (dictSet scores entry.id (dictGetD scores entry.id 0 + rrfScore),
       dictSet entries entry.id entry)

/-- The score and entry dictionaries after both ranked lists have been
processed (lexical list first, then semantic list). -/
def rrfMaps (kconst : Nat) (results1 results2 : List (MemoryEntry × ℚ)) : ScoreMap × EntryMap :=
  rrfProcess kconst 0 results2 (rrfProcess kconst 0 results1 ([], []))

/-- Stable insertion keeping descending score order: the new id goes in
front of the first id whose score is not larger, so ids with equal scores
keep their original relative order. -/
def stableInsertBy (score : String → ℚ) (x : String) : List String → List String
  | [] => [x]
  | y :: ys => if score y ≤ score x then x :: y :: ys else y :: stableInsertBy score x ys

/-- Python `sorted(scores.keys(), key=lambda x: scores[x], reverse=True)`:
a stable descending sort. Any two stable descending sorts agree, so the
insertion sort used here produces the same list as Python's sort. -/
def stableSortDescBy (score : String → ℚ) : List String → List String
  | [] => []
  | x :: xs => stableInsertBy score x (stableSortDescBy score xs)

/-- Python `entries[entry_id]`; in the fusion every looked-up id is
present, so the default is never hit there. -/
def entriesGet (entries : EntryMap) (id : String) : MemoryEntry :=
  (dictFind? entries id).getD ⟨"", [], "", [], 0, .note, none⟩

/-- Source tag assigned by the fusion: `hybrid` when the id appears in
both input lists, `fts` when only in the first, `semantic` otherwise. -/
def rrfSourceOf (results1 results2 : List (MemoryEntry × ℚ)) (id : String) : String :=
  if results1.any (fun p => p.1.id == id) && results2.any (fun p => p.1.id == id) then "hybrid"
  else if results1.any (fun p => p.1.id == id) then "fts"
  else "semantic"

/-- Ids of the fused output, sorted descending by cumulative score. -/
def rrfSortedIds (kconst : Nat) (results1 results2 : List (MemoryEntry × ℚ)) : List String :=
  let scores := (rrfMaps kconst results1 results2).1
  stableSortDescBy (fun i => dictGetD scores i 0) (scores.map Prod.fst)

/-- Transcription of `_reciprocal_rank_fusion`. -/
def rrfFusion (kconst : Nat) (results1 results2 : List (MemoryEntry × ℚ)) :
    List (MemoryEntry × ℚ × String) :=
  let maps := rrfMaps kconst results1 results2
  (rrfSortedIds kconst results1 results2).map fun i =>
    (entriesGet maps.2 i, dictGetD maps.1 i 0, rrfSourceOf results1 results2 i)

/-- Score contribution of one ranked list in the specification's words:
`1 / (rank + k)` at the entry's rank (counted from `base`), and nothing
when the id is absent from the list. This is the spec-side vocabulary for
the score-formula claim, to be compared with `rrfFusion`. -/
def specListContribFrom (kconst base : Nat) : List (MemoryEntry × ℚ) → String → ℚ
  | [], _ => 0
  | (e, _) :: rest, id =>
    if e.id = id then 1 / ((base : ℚ) + (kconst : ℚ))
    else specListContribFrom kconst (base + 1) rest id

/-- Spec-side per-list contribution with ranks counted from 0. -/
def specListContrib (kconst : Nat) (l : List (MemoryEntry × ℚ)) (id : String) : ℚ :=
  specListContribFrom kconst 0 l id

/-! ### Recall -/

structure RecallResultM where
  entry : MemoryEntry
  score : ℚ
  source : String
deriving DecidableEq, Repr

/-- Transcription of `_fts_search`: any SQLite error is caught inside the
function and yields the empty result list. The raw ranked rows (already
score-normalized) are an explicit parameter. -/
def ftsSearch (raw : Except String (List (MemoryEntry × ℚ))) : List (MemoryEntry × ℚ) :=
  match raw with
  | .ok l => l
  | .error _ => []

/-- Transcription of `_semantic_search`: a query-embedding failure or a
Qdrant error is caught inside the function and yields the empty result
list. -/
def semanticSearch (embedRaw : Except String (List ℚ))
    (searchRaw : List ℚ → Except String (List (MemoryEntry × ℚ))) :
    List (MemoryEntry × ℚ) :=
  match embedRaw with
  | .error _ => []
  | .ok v =>
    match searchRaw v with
    | .ok l => l
    | .error _ => []

/-- Transcription of the memory graph's `recall`: lexical search, semantic
search when Qdrant is available, rank fusion when the semantic list is
nonempty, otherwise the lexical pass-through tagged `fts` (the code's
literal tag for the lexical source), truncated to `k`. -/
def recallMem (kconst : Nat) (qdrantAvailable : Bool)
    (ftsRaw : Except String (List (MemoryEntry × ℚ)))
    (embedRaw : Except String (List ℚ))
    (searchRaw : List ℚ → Except String (List (MemoryEntry × ℚ)))
    (k : Nat) : List RecallResultM :=
  let ftsResults := ftsSearch ftsRaw
  let semanticResults := if qdrantAvailable then semanticSearch embedRaw searchRaw else []
  let combined :=
    if semanticResults.isEmpty then ftsResults.map (fun p => (p.1, p.2, "fts"))
    else rrfFusion kconst ftsResults semanticResults
  (combined.take k).map fun t => ⟨t.1, t.2.1, t.2.2⟩

/-! ### Embedding cache -/

structure CacheState (κ V : Type) where
  cache : List (κ × V)
  order : List κ
  maxSize : Nat
  hits : Nat
  misses : Nat
deriving DecidableEq, Repr

/-- Python `list.remove(x)`: delete the first occurrence. (The engine only
calls it when the element is present.) -/
def listRemove {κ : Type} [DecidableEq κ] : List κ → κ → List κ
  | [], _ => []
  | x :: xs, k => if x = k then xs else x :: listRemove xs k

/-- Cache-check step at the top of the embedding engine's `embed`: a hit
increments `hits` and returns the stored vector, a miss increments
`misses`; neither touches the recency list. -/
def cacheLookup {κ V : Type} [DecidableEq κ] (st : CacheState κ V) (k : κ) :
    Option V × CacheState κ V :=
  match dictFind? st.cache k with
  | some v => (some v, { st with hits := st.hits + 1 })
  | none => (none, { st with misses := st.misses + 1 })

/-- Transcription of `_add_to_cache`: re-putting an existing key first
removes it from the recency list, the key is (re)bound and appended at the
recent end, and if the dictionary then exceeds the bound the key at the
front of the recency list is evicted. (The empty-recency branch is dead
code: the recency list just had the new key appended.) -/
def addToCache {κ V : Type} [DecidableEq κ] (st : CacheState κ V) (k : κ) (v : V) :
    CacheState κ V :=
  let order1 := if dictContains st.cache k then listRemove st.order k else st.order
  let cache1 := dictSet st.cache k v
  let order2 := order1 ++ [k]
  if st.maxSize < cache1.length then
    match order2 with
    | [] => { st with cache := cache1, order := [] }
    | oldest :: restOrder => { st with cache := dictErase cache1 oldest, order := restOrder }
  else
    { st with cache := cache1, order := order2 }

/-- Well-formedness tying the dictionary and the recency list together:
the recency list is a duplicate-free enumeration of the cached keys. -/
def cacheWF {κ V : Type} [DecidableEq κ] (st : CacheState κ V) : Prop :=
  st.order.Perm (st.cache.map Prod.fst) ∧ (st.cache.map Prod.fst).Nodup

/-! ### Embedding engine -/

/-- Outcome of one POST to the embeddings API, as seen by the engine:
a 200 response with its (possibly empty) embedding list, a non-200
status, a connection error, or any other exception. -/
inductive ApiResp where
  | success (embedding : List ℚ)
  | httpError
  | connectError
  | otherError
deriving DecidableEq, Repr

/-- Which model a POST was issued against. -/
inductive ModelCall where
  | primary
  | fallback
deriving DecidableEq, Repr

structure EngineState where
  model : String
  dimension : Nat
  degraded : Bool
  cache : CacheState String (List ℚ)
deriving Repr

/-- Result of an `embed` call: the returned value, the new engine state,
and the trace of models actually POSTed, in order. -/
structure EmbedOutcome where
  result : Except String (List ℚ)
  state : EngineState
  calls : List ModelCall
deriving Repr

/-- Transcription of `_fallback_embed`: the degraded flag is set before
the fallback model is called, so even a failed fallback attempt leaves the
engine degraded; a successful nonempty fallback embedding is returned
without being cached. -/
def fallbackEmbed (st : EngineState) (fallbackResp : ApiResp) : EmbedOutcome :=
  let st1 := { st with degraded := true }
  { result :=
      match fallbackResp with
      | .success v => if v = [] then .error "Empty fallback embedding" else .ok v
      | .httpError => .error "Fallback model also failed"
      | .connectError => .error "Fallback embedding failed"
      | .otherError => .error "Fallback embedding failed"
    state := st1
    calls := [.fallback] }

/-- Transcription of the embedding engine's `embed`: reject blank text,
consult the cache, otherwise POST the primary model; on a non-200 status
or a connection error fall back once unless already degraded; a 200
response with a nonempty embedding is cached and returned (a dimension
mismatch only logs a warning and is not observable here). -/
def embedE (st : EngineState) (text : List Char) (primaryResp fallbackResp : ApiResp) :
    EmbedOutcome :=
  if text = [] ∨ pyStrip text = [] then ⟨.error "Cannot embed empty text", st, []⟩
  else
    let key := st.model ++ ":" ++ String.mk text
    match cacheLookup st.cache key with
    | (some v, cache') => ⟨.ok v, { st with cache := cache' }, []⟩
    | (none, cache') =>
      let st1 := { st with cache := cache' }
      match primaryResp with
      | .success v =>
        if v = [] then ⟨.error "Empty embedding returned", st1, [.primary]⟩
        else ⟨.ok v, { st1 with cache := addToCache st1.cache key v }, [.primary]⟩
      | .httpError =>
        if st1.degraded = false then
          let o := fallbackEmbed st1 fallbackResp
          ⟨o.result, o.state, .primary :: o.calls⟩
        else ⟨.error "Ollama API error", st1, [.primary]⟩
      | .connectError =>
        if st1.degraded = false then
          let o := fallbackEmbed st1 fallbackResp
          ⟨o.result, o.state, .primary :: o.calls⟩
        else ⟨.error "Cannot connect to Ollama", st1, [.primary]⟩
      | .otherError => ⟨.error "Unexpected error generating embedding", st1, [.primary]⟩

/-! ### Concrete data used by counterexamples and witnesses -/

/-- Modelled from the spec: the content hash is a deterministic digest of
the content used only as a uniqueness key (the digest algorithm itself,
SHA-256 from the standard library, is external to the repository). General
theorems quantify over the hash function; concrete executions use this
injective stand-in. -/
def strHash (s : List Char) : String := String.mk s

/-- Entry with id `A` (rank example). -/
def exEntryA : MemoryEntry := ⟨"A", ['a'], "hA", [], 0, .note, none⟩

def exEntryB : MemoryEntry := ⟨"B", ['b'], "hB", [], 0, .note, none⟩

def exEntryC : MemoryEntry := ⟨"C", ['c'], "hC", [], 0, .note, none⟩

/-- Lexical ranked list `[A, B, C]` (raw scores are ignored by fusion). -/
def exLex : List (MemoryEntry × ℚ) := [(exEntryA, 9/10), (exEntryB, 8/10), (exEntryC, 7/10)]

/-- Semantic ranked list `[B, C, A]`. -/
def exSem : List (MemoryEntry × ℚ) := [(exEntryB, 95/100), (exEntryC, 9/10), (exEntryA, 7/10)]

/-- Old entry (timestamp 0) appearing only in the lexical list of the
tie-break counterexample. -/
def exOldA : MemoryEntry := ⟨"A", ['a'], "hA", [], 0, .note, none⟩

/-- Recent entry (timestamp 100) appearing only in the semantic list of
the tie-break counterexample. -/
def exNewB : MemoryEntry := ⟨"B", ['b'], "hB", [], 100, .note, none⟩

/-- Two-paragraph content of length 602 (> 500), chunked into two rows by
`store` with the default configuration. -/
def exC1content : List Char :=
  List.replicate 300 'a' ++ '\n' :: '\n' :: List.replicate 300 'b'

/-- Content of length 603 (> 500) whose first paragraph is shorter than
the overlap, so the overlap-removal reconstruction drops real characters. -/
def exC3content : List Char := 'A' :: '\n' :: '\n' :: List.replicate 600 'x'

/-- Empty embedding cache with capacity 2 (counters at 0). -/
def exCache0 : CacheState String Nat := ⟨[], [], 2, 0, 0⟩

/-- Cache state after `put X, put Y` into the capacity-2 cache. -/
def exCache2 : CacheState String Nat := addToCache (addToCache exCache0 "X" 1) "Y" 2

/-- Cache state after the subsequent `get X` (a hit). -/
def exCacheAfterGet : CacheState String Nat := (cacheLookup exCache2 "X").2

/-- Cache state after the final `put Z`, which triggers an eviction. -/
def exCache4 : CacheState String Nat := addToCache exCacheAfterGet "Z" 3

/-- Engine that has already permanently switched to degraded mode
(empty cache, default capacity). -/
def exEngineDegraded : EngineState := ⟨"mxbai-embed-large", 1024, true, ⟨[], [], 1000, 0, 0⟩⟩

/-! ## Theorems

Claim theorems, their witnesses and counterexamples, and the helper
lemmas they share. -/

/-- C10: `delete(id)` returns success `true` whenever the SQLite delete
does not raise — even when no row with the id exists and whatever the
Qdrant delete returned (its error is swallowed) — and returns a failure
exactly when the SQLite delete raises, leaving the rows unchanged; the
boolean therefore does not indicate whether an entry was removed. -/
theorem delete_success_semantics (st : GraphState) (avail : Bool)
    (qdrantRaw : Except String Unit) (memId : String) (e : String) :
    ((deleteMem st avail qdrantRaw (.ok ()) memId).1 = .ok true)
  ∧ ((deleteMem st avail qdrantRaw (.error e) memId).1
      = .error ("Failed to delete memory: " ++ e))
  ∧ ((deleteMem st avail qdrantRaw (.error e) memId).2 = st) :=
  ⟨rfl, rfl, rfl⟩

/-- C8: `recall` propagates no index-level error: a failed lexical search
behaves exactly like an empty lexical result, a failed query embedding or
a failed semantic search degrades recall to the lexical pass-through, and
when both sides fail the result is the empty list rather than an error. -/
theorem recall_error_degradation (kconst : Nat) (avail : Bool)
    (ftsRaw : Except String (List (MemoryEntry × ℚ)))
    (embedRaw : Except String (List ℚ))
    (searchRaw : List ℚ → Except String (List (MemoryEntry × ℚ)))
    (k : Nat) (m m' : String) (v : List ℚ) :
    (recallMem kconst avail (.error m) embedRaw searchRaw k
      = recallMem kconst avail (.ok []) embedRaw searchRaw k)
  ∧ (recallMem kconst avail ftsRaw (.error m) searchRaw k
      = ((ftsSearch ftsRaw).map (fun p => RecallResultM.mk p.1 p.2 "fts")).take k)
  ∧ (recallMem kconst avail ftsRaw (.ok v) (fun x => .error m') k
      = ((ftsSearch ftsRaw).map (fun p => RecallResultM.mk p.1 p.2 "fts")).take k)
  ∧ (recallMem kconst avail (.error m) (.error m') searchRaw k = [])
  ∧ (recallMem kconst avail (.error m) (.ok v) (fun x => .error m') k = []) := by
  refine ⟨rfl, ?_, ?_, ?_, ?_⟩ <;>
    simp [recallMem, semanticSearch, ftsSearch, ← List.map_take, List.map_map, Function.comp]

/-- C6: when the semantic result list is empty (in particular when the
vector index is unavailable), `recall` skips rank fusion and returns the
lexical results unchanged — same entries, same order, same scores,
truncated to the requested `k` — with the lexical source tag (`fts` in the
code's vocabulary) on every returned result. -/
theorem recall_lexical_passthrough (kconst : Nat) (avail : Bool)
    (ftsRaw : Except String (List (MemoryEntry × ℚ)))
    (embedRaw : Except String (List ℚ))
    (searchRaw : List ℚ → Except String (List (MemoryEntry × ℚ)))
    (k : Nat)
    (h : (if avail then semanticSearch embedRaw searchRaw else []) = []) :
    (recallMem kconst avail ftsRaw embedRaw searchRaw k
      = ((ftsSearch ftsRaw).map (fun p => RecallResultM.mk p.1 p.2 "fts")).take k)
  ∧ (∀ r ∈ recallMem kconst avail ftsRaw embedRaw searchRaw k, r.source = "fts") := by
  have hmain : recallMem kconst avail ftsRaw embedRaw searchRaw k
      = ((ftsSearch ftsRaw).map (fun p => RecallResultM.mk p.1 p.2 "fts")).take k := by
    simp [recallMem, h, ← List.map_take, List.map_map, Function.comp]
  refine ⟨hmain, fun r hr => ?_⟩
  rw [hmain] at hr
  obtain ⟨p, -, rfl⟩ := List.mem_map.mp (List.mem_of_mem_take hr)
  rfl

/-- Closed instance of the lexical pass-through: with the vector index
unavailable, recall over a concrete lexical list returns it unchanged with
source `fts`. -/
theorem recall_lexical_passthrough_witness :
    (recallMem 60 false (.ok exLex) (.error "embed failed") (fun x => .error "down") 5
      = ((ftsSearch (.ok exLex)).map (fun p => RecallResultM.mk p.1 p.2 "fts")).take 5)
  ∧ (∀ r ∈ recallMem 60 false (.ok exLex) (.error "embed failed") (fun x => .error "down") 5,
      r.source = "fts") :=
  recall_lexical_passthrough 60 false (.ok exLex) (.error "embed failed")
    (fun x => .error "down") 5 rfl

set_option maxRecDepth 100000 in
/-- C1 counterexample: storing two-paragraph content of length 602 twice
with the default configuration succeeds both times but returns id `N` the
first time and id `N_chunk0` the second time (the dedup hit returns the
first chunk's row, whose id carries the `_chunk0` suffix), so re-storing
identical multi-chunk content does not return the same id. -/
theorem store_duplicate_chunked_id_differs :
    ((storeMem strHash 500 50 "mxbai-embed-large" ⟨[]⟩ "N" 0 exC1content [] .note).map
      (fun p => p.1.id) = .ok "N")
  ∧ (((storeMem strHash 500 50 "mxbai-embed-large" ⟨[]⟩ "N" 0 exC1content [] .note).bind
      (fun p => storeMem strHash 500 50 "mxbai-embed-large" p.2 "M" 1 exC1content [] .note)).map
      (fun p => p.1.id) = .ok "N_chunk0")
  ∧ ("N" : String) ≠ "N_chunk0" := by
  refine ⟨rfl, rfl, by decide⟩

set_option maxRecDepth 100000 in
/-- C3 counterexample: for the length-603 content whose first paragraph is
a single character, removing each chunk's leading 50-character prefix and
concatenating loses 48 non-whitespace characters, so the reconstruction is
not the original content even after discarding all whitespace. -/
theorem chunk_roundtrip_counterexample :
    ((eraseWs (reconstruct 50 (chunkContent 500 50 exC3content))).length = 553)
  ∧ ((eraseWs exC3content).length = 601)
  ∧ eraseWs (reconstruct 50 (chunkContent 500 50 exC3content)) ≠ eraseWs exC3content := by
  refine ⟨rfl, rfl, fun h => ?_⟩
  have h2 := congrArg List.length h
  rw [show (eraseWs (reconstruct 50 (chunkContent 500 50 exC3content))).length = 553 from rfl,
      show (eraseWs exC3content).length = 601 from rfl] at h2
  exact absurd h2 (by decide)

/-- C4 counterexample: with capacity 2, after `put X, put Y, get X, put Z`
the cache evicts `X` (not `Y`): the `get` hit incremented the hit counter
and returned the vector but did not refresh `X`'s recency, so eviction
follows put order, contradicting strict LRU recency on reads. -/
theorem cache_get_no_recency_counterexample :
    ((cacheLookup exCache2 "X").1 = some 1)
  ∧ (exCacheAfterGet.hits = 1)
  ∧ (dictFind? exCache4.cache "X" = none)
  ∧ (dictFind? exCache4.cache "Y" = some 2)
  ∧ (dictFind? exCache4.cache "Z" = some 3) := by decide

/-- C5 counterexample: an engine already in degraded mode, on a cache
miss, still POSTs the primary model and returns its vector — the call
trace is exactly one primary call and no fallback call — contradicting
the claim that degraded-mode calls skip straight to the fallback path. -/
theorem embed_degraded_calls_primary_counterexample :
    ((embedE exEngineDegraded ['h', 'i'] (.success [1]) (.success [2])).result = .ok [1])
  ∧ ((embedE exEngineDegraded ['h', 'i'] (.success [1]) (.success [2])).calls
      = [ModelCall.primary]) :=
  ⟨rfl, rfl⟩

section DictLemmas

variable {κ β : Type} [DecidableEq κ]

theorem dict_find_eq_none_of_not_contains {m : List (κ × β)} {k : κ}
    (h : dictContains m k = false) : dictFind? m k = none := by
  have hall := List.any_eq_false.mp h
  simp [dictFind?, List.find?_eq_none.mpr hall]

theorem dict_contains_iff_mem_keys {m : List (κ × β)} {k : κ} :
    dictContains m k = true ↔ k ∈ m.map Prod.fst := by
  constructor
  · intro h
    obtain ⟨p, hp, he⟩ := List.any_eq_true.mp h
    exact List.mem_map.mpr ⟨p, hp, by simpa [beq_iff_eq] using he⟩
  · intro h
    obtain ⟨p, hp, he⟩ := List.mem_map.mp h
    exact List.any_eq_true.mpr ⟨p, hp, by simp [beq_iff_eq, he]⟩

theorem dict_find_isSome_of_mem_keys {m : List (κ × β)} {k : κ}
    (h : k ∈ m.map Prod.fst) : (dictFind? m k).isSome = true := by
  induction m with
  | nil => simp at h
  | cons p rest ih =>
    cases hp : (p.1 == k) with
    | true => simp only [dictFind?, List.find?, hp]; rfl
    | false =>
      have hne : p.1 ≠ k := by simpa [beq_iff_eq] using hp
      have h' : k ∈ rest.map Prod.fst := by
        rcases List.mem_map.mp h with ⟨q, hq, hqk⟩
        rcases List.mem_cons.mp hq with rfl | hq'
        · exact absurd hqk hne
        · exact List.mem_map.mpr ⟨q, hq', hqk⟩
      simp only [dictFind?, List.find?, hp]
      exact ih h'

theorem dict_find_append_left {m m' : List (κ × β)} {k : κ}
    (h : dictContains m k = true) : dictFind? (m ++ m') k = dictFind? m k := by
  cases hf : m.find? (fun p => p.1 == k) with
  | some p => simp [dictFind?, List.find?_append, hf]
  | none =>
    exfalso
    obtain ⟨x, hx, hpx⟩ := List.any_eq_true.mp h
    exact (List.find?_eq_none.mp hf x hx) hpx

theorem dict_find_append_self {m : List (κ × β)} {k : κ} {v : β}
    (h : dictContains m k = false) : dictFind? (m ++ [(k, v)]) k = some v := by
  have hf : m.find? (fun p => p.1 == k) = none :=
    List.find?_eq_none.mpr (List.any_eq_false.mp h)
  simp [dictFind?, List.find?_append, hf]

/-- An element of the filtered dictionary never has the erased key. -/
theorem dict_find_erase_self {m : List (κ × β)} {j : κ} :
    dictFind? (dictErase m j) j = none := by
  have hnone : (dictErase m j).find? (fun p => p.1 == j) = none := by
    apply List.find?_eq_none.mpr
    intro x hx
    have h2 := (List.mem_filter.mp hx).2
    simp only [bne_iff_ne, ne_eq] at h2
    simpa [beq_iff_eq] using h2
  simp [dictFind?, hnone]

theorem find_filter_ne_key {m : List (κ × β)} {j k : κ} (h : k ≠ j) :
    (m.filter (fun p => p.1 != j)).find? (fun p => p.1 == k)
      = m.find? (fun p => p.1 == k) := by
  induction m with
  | nil => rfl
  | cons p rest ih =>
    by_cases hpj : p.1 = j
    · have hb : (p.1 != j) = false := by simp [bne, hpj]
      have hpk : (p.1 == k) = false := by
        simp only [beq_eq_false_iff_ne, ne_eq, hpj]
        exact fun he => h he.symm
      simp only [List.filter, hb, List.find?, hpk]
      exact ih
    · have hb : (p.1 != j) = true := by simp [bne, hpj]
      simp only [List.filter, hb]
      cases hpk : (p.1 == k) with
      | true => simp only [List.find?, hpk]
      | false =>
        simp only [List.find?, hpk]
        exact ih

theorem dict_find_erase_ne {m : List (κ × β)} {j k : κ} (h : k ≠ j) :
    dictFind? (dictErase m j) k = dictFind? m k := by
  simp only [dictFind?, dictErase]
  rw [find_filter_ne_key h]

theorem dict_erase_length {m : List (κ × β)} {j : κ} :
    (dictErase m j).length = m.length - (m.map Prod.fst).count j := by
  simp only [dictErase]
  induction m with
  | nil => rfl
  | cons p rest ih =>
    have hcount : (rest.map Prod.fst).count j ≤ rest.length := by
      simpa using List.count_le_length j (rest.map Prod.fst)
    rw [show ((p :: rest).map Prod.fst) = p.1 :: rest.map Prod.fst from rfl]
    by_cases hpj : p.1 = j
    · have hb : (p.1 != j) = false := by simp [bne, hpj]
      rw [List.filter_cons, hb, if_neg Bool.false_ne_true, hpj, List.count_cons_self]
      simp only [List.length_cons]
      omega
    · have hb : (p.1 != j) = true := by simp [bne, hpj]
      rw [List.filter_cons, hb, if_pos rfl,
        List.count_cons_of_ne (fun he => hpj he.symm)]
      simp only [List.length_cons]
      omega

theorem dictSet_length_of_contains {m : List (κ × β)} {k : κ} {v : β}
    (h : dictContains m k = true) : (dictSet m k v).length = m.length := by
  simp [dictSet, h]

theorem dictSet_length_of_not_contains {m : List (κ × β)} {k : κ} {v : β}
    (h : dictContains m k = false) : (dictSet m k v).length = m.length + 1 := by
  simp [dictSet, h]

theorem find_map_update_self {m : List (κ × β)} {k : κ} {v : β}
    (h : dictContains m k = true) :
    (m.map (fun p => if p.1 == k then (k, v) else p)).find? (fun p => p.1 == k)
      = some (k, v) := by
  induction m with
  | nil => simp [dictContains] at h
  | cons p rest ih =>
    cases hpk : (p.1 == k) with
    | true =>
      simp only [List.map_cons, hpk, if_true]
      simp only [List.find?, beq_self_eq_true]
    | false =>
      have h' : dictContains rest k = true := by
        rcases List.any_eq_true.mp h with ⟨x, hx, hxk⟩
        rcases List.mem_cons.mp hx with rfl | hx'
        · rw [hpk] at hxk; exact Bool.noConfusion hxk
        · exact List.any_eq_true.mpr ⟨x, hx', hxk⟩
      simp only [List.map_cons, hpk]
      rw [if_neg Bool.false_ne_true]
      simp only [List.find?, hpk]
      exact ih h'

theorem dict_find_set_self {m : List (κ × β)} {k : κ} {v : β} :
    dictFind? (dictSet m k v) k = some v := by
  by_cases h : dictContains m k = true
  · simp only [dictFind?, dictSet, if_pos h]
    rw [find_map_update_self h]
    rfl
  · have h' : dictContains m k = false := by
      cases hh : dictContains m k
      · rfl
      · exact absurd hh h
    rw [dictSet, if_neg h]
    exact dict_find_append_self h'

theorem find_map_update_ne {m : List (κ × β)} {j k : κ} {v : β} (h : j ≠ k) :
    (m.map (fun p => if p.1 == k then (k, v) else p)).find? (fun p => p.1 == j)
      = m.find? (fun p => p.1 == j) := by
  induction m with
  | nil => rfl
  | cons p rest ih =>
    cases hpk : (p.1 == k) with
    | true =>
      have hk : p.1 = k := by simpa [beq_iff_eq] using hpk
      have hkj : ((k : κ) == j) = false := by
        simp only [beq_eq_false_iff_ne, ne_eq]
        exact fun he => h he.symm
      have hpj : (p.1 == j) = false := by rw [hk]; exact hkj
      simp only [List.map_cons, hpk, if_true]
      simp only [List.find?, hkj, hpj]
      exact ih
    | false =>
      simp only [List.map_cons, hpk]
      rw [if_neg Bool.false_ne_true]
      cases hpj : (p.1 == j) with
      | true => simp only [List.find?, hpj]
      | false =>
        simp only [List.find?, hpj]
        exact ih

theorem dict_find_set_ne {m : List (κ × β)} {j k : κ} {v : β} (h : j ≠ k) :
    dictFind? (dictSet m k v) j = dictFind? m j := by
  by_cases hc : dictContains m k = true
  · simp only [dictFind?, dictSet, if_pos hc]
    rw [find_map_update_ne h]
  · rw [dictSet, if_neg hc]
    simp only [dictFind?, List.find?_append]
    have hone : ([((k, v) : κ × β)].find? (fun p => p.1 == j)) = none := by
      apply List.find?_eq_none.mpr
      intro x hx
      rcases List.mem_singleton.mp hx with rfl
      simp only [beq_iff_eq]
      exact fun he => h he.symm
    rw [hone]
    cases m.find? (fun p => p.1 == j) <;> rfl

theorem isNone_eq_false_of_isSome {α : Type} {o : Option α}
    (h : o.isSome = true) : o.isNone = false := by
  cases o
  · simp at h
  · rfl

end DictLemmas

/-- C4 (amended): the cache-check step on a hit increments only the hit
counter — it does not refresh recency — and on a miss increments only the
miss counter; `put` on an existing key refreshes its recency (moves it to
the back of the put-order list) without growing the cache; and when an
eviction occurs it removes the key at the front of the put-recency list,
i.e. the least-recently-put key, which is then absent while the new key is
present. -/
theorem cache_recency_semantics {V : Type} (st : CacheState String V) (k : String) (v : V) :
    (∀ hv, dictFind? st.cache k = some hv →
      cacheLookup st k = (some hv, { st with hits := st.hits + 1 }))
  ∧ (dictFind? st.cache k = none →
      cacheLookup st k = (none, { st with misses := st.misses + 1 }))
  ∧ (dictContains st.cache k = true → st.cache.length ≤ st.maxSize →
      (addToCache st k v).cache.length = st.cache.length
      ∧ (addToCache st k v).order = listRemove st.order k ++ [k])
  ∧ (cacheWF st → dictContains st.cache k = false → st.cache.length = st.maxSize →
      1 ≤ st.maxSize →
      ∃ oldest rest, st.order = oldest :: rest
        ∧ (addToCache st k v).order = rest ++ [k]
        ∧ dictFind? (addToCache st k v).cache oldest = none
        ∧ dictFind? (addToCache st k v).cache k = some v) := by
  refine ⟨?_, ?_, ?_, ?_⟩
  · intro hv hfind
    simp [cacheLookup, hfind]
  · intro hfind
    simp [cacheLookup, hfind]
  · intro hc hle
    have hlen : (dictSet st.cache k v).length = st.cache.length :=
      dictSet_length_of_contains hc
    have hnoev : ¬ st.maxSize < (dictSet st.cache k v).length := by omega
    constructor
    · have : (addToCache st k v).cache = dictSet st.cache k v := by
        simp only [addToCache]
        rw [if_neg hnoev]
      rw [this, hlen]
    · simp only [addToCache, hc, if_true]
      rw [if_neg hnoev]
  · intro hwf hc hfull hpos
    obtain ⟨hperm, hnodup⟩ := hwf
    have hlen : (dictSet st.cache k v).length = st.cache.length + 1 :=
      dictSet_length_of_not_contains hc
    have hev : st.maxSize < (dictSet st.cache k v).length := by omega
    have hordlen : st.order.length = st.cache.length := by
      simpa using hperm.length_eq
    have hordne : st.order ≠ [] := by
      intro hnil
      rw [hnil] at hordlen
      simp at hordlen
      omega
    obtain ⟨oldest, rest, hord⟩ := List.exists_cons_of_ne_nil hordne
    have holdmem : oldest ∈ st.cache.map Prod.fst :=
      hperm.mem_iff.mp (by rw [hord]; exact List.mem_cons_self _ _)
    have hknotmem : k ∉ st.cache.map Prod.fst := fun hmem => by
      rw [← dict_contains_iff_mem_keys] at hmem
      rw [hmem] at hc
      exact Bool.noConfusion hc
    have hkne : k ≠ oldest := fun he => hknotmem (he ▸ holdmem)
    have hcfalse : ¬ (dictContains st.cache k = true) := by
      rw [hc]; exact Bool.false_ne_true
    have hset : dictSet st.cache k v = st.cache ++ [(k, v)] := by
      rw [dictSet, if_neg hcfalse]
    have hcache : (addToCache st k v).cache
        = dictErase (dictSet st.cache k v) oldest := by
      simp only [addToCache]
      rw [if_neg hcfalse, if_pos hev, hord]
      rfl
    have horder : (addToCache st k v).order = rest ++ [k] := by
      simp only [addToCache]
      rw [if_neg hcfalse, if_pos hev, hord]
      rfl
    refine ⟨oldest, rest, hord, horder, ?_, ?_⟩
    · rw [hcache]
      exact dict_find_erase_self
    · rw [hcache, dict_find_erase_ne hkne, hset]
      exact dict_find_append_self hc

/-- Closed instance of the amended cache behaviour: inserting a fresh key
into a full well-formed one-entry cache evicts the front of the put-order
list while the new key stays resident. -/
theorem cache_recency_semantics_witness :
    ∃ oldest rest, (CacheState.mk [("a", 7)] ["a"] 1 0 0 : CacheState String Nat).order
        = oldest :: rest
      ∧ (addToCache (CacheState.mk [("a", 7)] ["a"] 1 0 0) "b" 9).order = rest ++ ["b"]
      ∧ dictFind? (addToCache (CacheState.mk [("a", 7)] ["a"] 1 0 0) "b" 9).cache oldest = none
      ∧ dictFind? (addToCache (CacheState.mk [("a", 7)] ["a"] 1 0 0) "b" 9).cache "b"
          = some 9 :=
  (cache_recency_semantics (CacheState.mk [("a", 7)] ["a"] 1 0 0) "b" 9).2.2.2
    (by constructor <;> decide) (by decide) (by decide) (by decide)

/-- C9: one `put` into a well-formed cache within its (positive) bound
keeps the entry count within the bound, and the number of
previously-cached keys evicted is exactly one when the insertion would
exceed the bound (a fresh key into a full cache) and zero otherwise —
never more than one. -/
theorem cache_bound_single_eviction {V : Type} (st : CacheState String V) (k : String) (v : V)
    (hwf : cacheWF st) (hb : st.cache.length ≤ st.maxSize) (hpos : 1 ≤ st.maxSize) :
    (addToCache st k v).cache.length ≤ st.maxSize
  ∧ (st.cache.map Prod.fst).countP (fun j => (dictFind? (addToCache st k v).cache j).isNone)
      = (if dictContains st.cache k = true ∨ st.cache.length < st.maxSize then 0 else 1) := by
  obtain ⟨hperm, hnodup⟩ := hwf
  by_cases hc : dictContains st.cache k = true
  · have hlen : (dictSet st.cache k v).length = st.cache.length :=
      dictSet_length_of_contains hc
    have hnoev : ¬ st.maxSize < (dictSet st.cache k v).length := by omega
    have hcache : (addToCache st k v).cache = dictSet st.cache k v := by
      simp only [addToCache]
      rw [if_neg hnoev]
    constructor
    · rw [hcache, hlen]; exact hb
    · rw [if_pos (Or.inl hc), List.countP_eq_zero]
      intro j hj
      rw [hcache]
      by_cases hjk : j = k
      · subst hjk
        rw [dict_find_set_self]
        simp
      · rw [dict_find_set_ne hjk]
        simp [isNone_eq_false_of_isSome (dict_find_isSome_of_mem_keys hj)]
  · have hcfalse : dictContains st.cache k = false := by
      cases hh : dictContains st.cache k
      · rfl
      · exact absurd hh hc
    have hknotmem : k ∉ st.cache.map Prod.fst := fun hmem =>
      hc (dict_contains_iff_mem_keys.mpr hmem)
    have hlen : (dictSet st.cache k v).length = st.cache.length + 1 :=
      dictSet_length_of_not_contains hcfalse
    have hset : dictSet st.cache k v = st.cache ++ [(k, v)] := by
      rw [dictSet, if_neg hc]
    by_cases hlt : st.cache.length < st.maxSize
    · have hnoev : ¬ st.maxSize < (dictSet st.cache k v).length := by omega
      have hcache : (addToCache st k v).cache = dictSet st.cache k v := by
        simp only [addToCache]
        rw [if_neg hnoev]
      constructor
      · rw [hcache, hlen]; omega
      · rw [if_pos (Or.inr hlt), List.countP_eq_zero]
        intro j hj
        rw [hcache]
        have hjk : j ≠ k := fun he => hknotmem (he ▸ hj)
        rw [dict_find_set_ne hjk]
        simp [isNone_eq_false_of_isSome (dict_find_isSome_of_mem_keys hj)]
    · have hfull : st.cache.length = st.maxSize := by omega
      have hev : st.maxSize < (dictSet st.cache k v).length := by omega
      have hordlen : st.order.length = st.cache.length := by
        simpa using hperm.length_eq
      have hordne : st.order ≠ [] := by
        intro hnil
        rw [hnil] at hordlen
        simp at hordlen
        omega
      obtain ⟨oldest, rest, hord⟩ := List.exists_cons_of_ne_nil hordne
      have holdmem : oldest ∈ st.cache.map Prod.fst :=
        hperm.mem_iff.mp (by rw [hord]; exact List.mem_cons_self _ _)
      have hkne : k ≠ oldest := fun he => hknotmem (he ▸ holdmem)
      have hcache : (addToCache st k v).cache
          = dictErase (dictSet st.cache k v) oldest := by
        simp only [addToCache]
        rw [if_neg hc, if_pos hev, hord]
        rfl
      have hcount1 : ((dictSet st.cache k v).map Prod.fst).count oldest = 1 := by
        rw [hset, List.map_append]
        rw [List.count_append]
        rw [List.count_eq_one_of_mem hnodup holdmem]
        simp [List.count_singleton, hkne.symm]
      constructor
      · rw [hcache, dict_erase_length, hcount1, hlen, hfull]
        omega
      · have hifneg : ¬ (dictContains st.cache k = true ∨ st.cache.length < st.maxSize) := by
          rintro (h1 | h2)
          · exact hc h1
          · exact hlt h2
        rw [if_neg hifneg]
        have hcongr : ∀ j ∈ st.cache.map Prod.fst,
            ((dictFind? (addToCache st k v).cache j).isNone = true) ↔ ((j == oldest) = true) := by
          intro j hj
          rw [hcache]
          constructor
          · intro hnone
            by_contra hne
            have hjo : j ≠ oldest := by simpa [beq_iff_eq] using hne
            rw [dict_find_erase_ne hjo, hset, dict_find_append_left
              (dict_contains_iff_mem_keys.mpr hj)] at hnone
            have := dict_find_isSome_of_mem_keys hj
            rw [isNone_eq_false_of_isSome this] at hnone
            exact Bool.false_ne_true hnone
          · intro hje
            have hjo : j = oldest := by simpa [beq_iff_eq] using hje
            subst hjo
            rw [dict_find_erase_self]
            rfl
        rw [List.countP_congr hcongr]
        rw [show (st.cache.map Prod.fst).countP (fun j => j == oldest)
            = (st.cache.map Prod.fst).count oldest from rfl]
        exact List.count_eq_one_of_mem hnodup holdmem

/-- Closed instance of the bound-and-single-eviction property at a full
one-entry cache receiving a fresh key. -/
theorem cache_bound_single_eviction_witness :
    (addToCache (CacheState.mk [("a", 7)] ["a"] 1 0 0 : CacheState String Nat) "b" 9).cache.length
        ≤ (CacheState.mk [("a", 7)] ["a"] 1 0 0 : CacheState String Nat).maxSize
  ∧ ((CacheState.mk [("a", 7)] ["a"] 1 0 0 : CacheState String Nat).cache.map Prod.fst).countP
      (fun j => (dictFind? (addToCache (CacheState.mk [("a", 7)] ["a"] 1 0 0) "b" 9).cache j).isNone)
      = (if dictContains (CacheState.mk [("a", 7)] ["a"] 1 0 0 : CacheState String Nat).cache "b" = true
            ∨ (CacheState.mk [("a", 7)] ["a"] 1 0 0 : CacheState String Nat).cache.length
              < (CacheState.mk [("a", 7)] ["a"] 1 0 0 : CacheState String Nat).maxSize
         then 0 else 1) :=
  cache_bound_single_eviction (CacheState.mk [("a", 7)] ["a"] 1 0 0) "b" 9
    (by constructor <;> decide) (by decide) (by decide)

/-- C5 (amended): the embedding fallback is one-way but does not replace
the primary path. On a cache miss with non-blank text and a primary
failure (non-200 status or connection error), a non-degraded `embed`
attempts exactly one fallback call — the trace is primary then fallback —
the engine ends degraded, and the fallback's result is what is returned;
an already-degraded `embed` makes no fallback attempt and returns the
primary error directly. Any fallback attempt — successful or not — leaves
the engine degraded and the flag never reverts; and in degraded mode a
cache-missing call still POSTs exactly the primary model (degraded mode
only suppresses further fallback attempts; it does not skip the primary). -/
theorem embed_fallback_state_machine (st : EngineState) (text : List Char)
    (pr fb : ApiResp) :
    ((embedE st text pr fb).calls.count ModelCall.fallback ≤ 1)
  ∧ (st.degraded = true → ModelCall.fallback ∉ (embedE st text pr fb).calls)
  ∧ (st.degraded = true → (embedE st text pr fb).state.degraded = true)
  ∧ (ModelCall.fallback ∈ (embedE st text pr fb).calls →
      (embedE st text pr fb).state.degraded = true)
  ∧ (st.degraded = true →
      (cacheLookup st.cache (st.model ++ ":" ++ String.mk text)).1 = none →
      ¬ (text = [] ∨ pyStrip text = []) →
      (embedE st text pr fb).calls = [ModelCall.primary])
  ∧ (st.degraded = false →
      (cacheLookup st.cache (st.model ++ ":" ++ String.mk text)).1 = none →
      ¬ (text = [] ∨ pyStrip text = []) →
      (pr = ApiResp.httpError ∨ pr = ApiResp.connectError) →
      (embedE st text pr fb).calls = [ModelCall.primary, ModelCall.fallback]
      ∧ (embedE st text pr fb).state.degraded = true
      ∧ (embedE st text pr fb).result
          = (fallbackEmbed
              { st with cache := (cacheLookup st.cache (st.model ++ ":" ++ String.mk text)).2 }
              fb).result)
  ∧ (st.degraded = true →
      (cacheLookup st.cache (st.model ++ ":" ++ String.mk text)).1 = none →
      ¬ (text = [] ∨ pyStrip text = []) →
      (pr = ApiResp.httpError →
        (embedE st text pr fb).result = Except.error "Ollama API error")
      ∧ (pr = ApiResp.connectError →
        (embedE st text pr fb).result = Except.error "Cannot connect to Ollama")) := by
  by_cases hblank : text = [] ∨ pyStrip text = []
  · refine ⟨?_, ?_, ?_, ?_, ?_, ?_, ?_⟩ <;> simp [embedE, hblank]
  · cases hf : dictFind? st.cache.cache (st.model ++ ":" ++ String.mk text) with
    | some v =>
      refine ⟨?_, ?_, ?_, ?_, ?_, ?_, ?_⟩ <;> simp [embedE, cacheLookup, hblank, hf]
    | none =>
      cases hdeg : st.degraded with
      | false =>
        cases pr with
        | success v =>
          by_cases hv : v = []
          · refine ⟨?_, ?_, ?_, ?_, ?_, ?_, ?_⟩ <;>
              simp [embedE, cacheLookup, hblank, hf, hdeg, hv]
          · refine ⟨?_, ?_, ?_, ?_, ?_, ?_, ?_⟩ <;>
              simp [embedE, cacheLookup, hblank, hf, hdeg, hv]
        | httpError =>
          refine ⟨?_, ?_, ?_, ?_, ?_, ?_, ?_⟩ <;>
            simp [embedE, cacheLookup, fallbackEmbed, hblank, hf, hdeg]
        | connectError =>
          refine ⟨?_, ?_, ?_, ?_, ?_, ?_, ?_⟩ <;>
            simp [embedE, cacheLookup, fallbackEmbed, hblank, hf, hdeg]
        | otherError =>
          refine ⟨?_, ?_, ?_, ?_, ?_, ?_, ?_⟩ <;>
            simp [embedE, cacheLookup, hblank, hf, hdeg]
      | true =>
        cases pr with
        | success v =>
          by_cases hv : v = []
          · refine ⟨?_, ?_, ?_, ?_, ?_, ?_, ?_⟩ <;>
              simp [embedE, cacheLookup, hblank, hf, hdeg, hv]
          · refine ⟨?_, ?_, ?_, ?_, ?_, ?_, ?_⟩ <;>
              simp [embedE, cacheLookup, hblank, hf, hdeg, hv]
        | httpError =>
          refine ⟨?_, ?_, ?_, ?_, ?_, ?_, ?_⟩ <;>
            simp [embedE, cacheLookup, hblank, hf, hdeg]
        | connectError =>
          refine ⟨?_, ?_, ?_, ?_, ?_, ?_, ?_⟩ <;>
            simp [embedE, cacheLookup, hblank, hf, hdeg]
        | otherError =>
          refine ⟨?_, ?_, ?_, ?_, ?_, ?_, ?_⟩ <;>
            simp [embedE, cacheLookup, hblank, hf, hdeg]

/-- Closed instance of the amended fallback behaviour: the degraded engine
on a cache miss issues exactly one primary POST and returns the primary
error directly, while the fresh (non-degraded) engine on the same failing
primary POSTs the primary and then exactly one fallback. -/
theorem embed_fallback_state_machine_witness :
    (embedE exEngineDegraded ['h', 'e', 'y'] ApiResp.httpError (ApiResp.success [1])).calls
        = [ModelCall.primary]
  ∧ (embedE exEngineDegraded ['h', 'e', 'y'] ApiResp.httpError (ApiResp.success [1])).result
        = Except.error "Ollama API error"
  ∧ (embedE (EngineState.mk "mxbai-embed-large" 1024 false (CacheState.mk [] [] 1000 0 0))
        ['h', 'e', 'y'] ApiResp.httpError (ApiResp.success [1])).calls
        = [ModelCall.primary, ModelCall.fallback] :=
  ⟨(embed_fallback_state_machine exEngineDegraded ['h', 'e', 'y'] .httpError
      (.success [1])).2.2.2.2.1 rfl rfl (by decide),
   ((embed_fallback_state_machine exEngineDegraded ['h', 'e', 'y'] .httpError
      (.success [1])).2.2.2.2.2.2 rfl rfl (by decide)).1 rfl,
   ((embed_fallback_state_machine (EngineState.mk "mxbai-embed-large" 1024 false
        (CacheState.mk [] [] 1000 0 0)) ['h', 'e', 'y'] .httpError
      (.success [1])).2.2.2.2.2.1 rfl rfl (by decide) (Or.inl rfl)).1⟩

section SortLemmas

theorem sublist_stableInsertBy (f : String → ℚ) (x : String) (l : List String) :
    l.Sublist (stableInsertBy f x l) := by
  induction l with
  | nil => simp [stableInsertBy]
  | cons y ys ih =>
    by_cases h : f y ≤ f x
    · simp only [stableInsertBy, if_pos h]
      exact List.sublist_cons_self x (y :: ys)
    · simp only [stableInsertBy, if_neg h]
      exact ih.cons₂ y

theorem mem_stableInsertBy {f : String → ℚ} {x y : String} {l : List String} :
    y ∈ stableInsertBy f x l ↔ y = x ∨ y ∈ l := by
  induction l with
  | nil => simp [stableInsertBy]
  | cons z zs ih =>
    by_cases h : f z ≤ f x
    · simp only [stableInsertBy, if_pos h, List.mem_cons]
    · simp only [stableInsertBy, if_neg h, List.mem_cons, ih]
      tauto

theorem mem_stableSortDescBy {f : String → ℚ} {y : String} {l : List String} :
    y ∈ stableSortDescBy f l ↔ y ∈ l := by
  induction l with
  | nil => simp [stableSortDescBy]
  | cons x xs ih =>
    simp [stableSortDescBy, mem_stableInsertBy, ih]

theorem pair_sublist_stableInsertBy {f : String → ℚ} {x b : String} {m : List String}
    (hb : b ∈ m) (hle : f b ≤ f x) :
    [x, b].Sublist (stableInsertBy f x m) := by
  induction m with
  | nil => simp at hb
  | cons y ys ih =>
    by_cases h : f y ≤ f x
    · simp only [stableInsertBy, if_pos h]
      exact (List.singleton_sublist.mpr hb).cons₂ x
    · simp only [stableInsertBy, if_neg h]
      rcases List.mem_cons.mp hb with rfl | hb'
      · exact absurd hle h
      · exact (ih hb').cons y

theorem pair_sublist_stableSortDescBy {f : String → ℚ} {a b : String} {l : List String}
    (hfeq : f a = f b) (hsub : [a, b].Sublist l) :
    [a, b].Sublist (stableSortDescBy f l) := by
  induction l with
  | nil => simp at hsub
  | cons x xs ih =>
    cases hsub with
    | cons _ h =>
      exact (ih h).trans (sublist_stableInsertBy f x (stableSortDescBy f xs))
    | cons₂ _ h =>
      have hb : b ∈ stableSortDescBy f xs :=
        mem_stableSortDescBy.mpr (List.singleton_sublist.mp h)
      exact pair_sublist_stableInsertBy hb (le_of_eq hfeq.symm)

end SortLemmas

section RrfLemmas

theorem mem_dictSet_cases {κ β : Type} [DecidableEq κ] {m : List (κ × β)} {k : κ} {v : β}
    {p : κ × β} (hp : p ∈ dictSet m k v) : p = (k, v) ∨ p ∈ m := by
  by_cases hc : dictContains m k = true
  · rw [dictSet, if_pos hc] at hp
    rcases List.mem_map.mp hp with ⟨q, hq, hqe⟩
    cases hqk : (q.1 == k) with
    | true => rw [hqk] at hqe; simp only [if_true] at hqe; left; exact hqe.symm
    | false =>
      rw [hqk] at hqe
      simp only [Bool.false_eq_true, if_false] at hqe
      right
      exact hqe ▸ hq
  · rw [dictSet, if_neg hc] at hp
    rcases List.mem_append.mp hp with h | h
    · right; exact h
    · left; simpa using h

theorem mem_keys_of_find_isSome {κ β : Type} [DecidableEq κ] {m : List (κ × β)} {j : κ}
    (h : (dictFind? m j).isSome = true) : j ∈ m.map Prod.fst := by
  cases hf : m.find? (fun p => p.1 == j) with
  | none => rw [dictFind?, hf] at h; simp at h
  | some p =>
    have hp := List.mem_of_find?_eq_some hf
    have hpj := List.find?_some hf
    exact List.mem_map.mpr ⟨p, hp, by simpa [beq_iff_eq] using hpj⟩

theorem mem_keys_dictSet_iff {κ β : Type} [DecidableEq κ] {m : List (κ × β)} {k : κ} {v : β}
    {j : κ} : j ∈ (dictSet m k v).map Prod.fst ↔ j = k ∨ j ∈ m.map Prod.fst := by
  constructor
  · intro h
    rcases List.mem_map.mp h with ⟨p, hp, hpj⟩
    rcases mem_dictSet_cases hp with rfl | hp'
    · left; exact hpj.symm
    · right; exact List.mem_map.mpr ⟨p, hp', hpj⟩
  · intro h
    rcases h with rfl | h
    · exact mem_keys_of_find_isSome (by rw [dict_find_set_self]; rfl)
    · by_cases hjk : j = k
      · subst hjk
        exact mem_keys_of_find_isSome (by rw [dict_find_set_self]; rfl)
      · exact mem_keys_of_find_isSome
          (by rw [dict_find_set_ne hjk]; exact dict_find_isSome_of_mem_keys h)

theorem dictGetD_set_self {κ β : Type} [DecidableEq κ] {m : List (κ × β)} {k : κ} {v d : β} :
    dictGetD (dictSet m k v) k d = v := by
  rw [dictGetD, dict_find_set_self]
  rfl

theorem dictGetD_set_ne {κ β : Type} [DecidableEq κ] {m : List (κ × β)} {j k : κ} {v d : β}
    (h : j ≠ k) : dictGetD (dictSet m k v) j d = dictGetD m j d := by
  rw [dictGetD, dict_find_set_ne h, dictGetD]

/-- Processing a list none of whose entry ids is `id` leaves `id`'s score
unchanged. -/
theorem rrfProcess_score_untouched (kconst : Nat) (r : Nat)
    (l : List (MemoryEntry × ℚ)) (acc : ScoreMap × EntryMap) (id : String)
    (h : id ∉ l.map (fun p => p.1.id)) :
    dictGetD (rrfProcess kconst r l acc).1 id 0 = dictGetD acc.1 id 0 := by
  induction l generalizing r acc with
  | nil => rfl
  | cons e rest ih =>
    obtain ⟨sm, em⟩ := acc
    obtain ⟨entry, score⟩ := e
    simp only [List.map_cons, List.mem_cons] at h
    push_neg at h
    rw [rrfProcess, ih (r + 1) _ (by simpa using h.2)]
    exact dictGetD_set_ne h.1

/-- Score accumulated by processing one duplicate-free ranked list: the
previous score plus the specification's single `1 / (rank + k)`
contribution. -/
theorem rrfProcess_score (kconst : Nat) (r : Nat) (l : List (MemoryEntry × ℚ))
    (acc : ScoreMap × EntryMap) (id : String)
    (hnd : (l.map (fun p => p.1.id)).Nodup) :
    dictGetD (rrfProcess kconst r l acc).1 id 0
      = dictGetD acc.1 id 0 + specListContribFrom kconst r l id := by
  induction l generalizing r acc with
  | nil => simp [rrfProcess, specListContribFrom]
  | cons e rest ih =>
    obtain ⟨sm, em⟩ := acc
    obtain ⟨entry, score⟩ := e
    simp only [List.map_cons, List.nodup_cons] at hnd
    by_cases hid : entry.id = id
    · rw [rrfProcess, specListContribFrom, if_pos hid]
      rw [rrfProcess_score_untouched kconst (r + 1) rest _ id (by rw [← hid]; exact hnd.1)]
      simp only
      rw [hid, dictGetD_set_self]
    · rw [rrfProcess, specListContribFrom, if_neg hid]
      rw [ih (r + 1) _ hnd.2]
      simp only
      rw [dictGetD_set_ne (fun he => hid he.symm)]

/-- The entry dictionary built by the fusion maps every key to an entry
whose id is that key. -/
theorem rrfProcess_entries_id (kconst : Nat) (r : Nat) (l : List (MemoryEntry × ℚ))
    (acc : ScoreMap × EntryMap) (h : ∀ p ∈ acc.2, p.2.id = p.1) :
    ∀ p ∈ (rrfProcess kconst r l acc).2, p.2.id = p.1 := by
  induction l generalizing r acc with
  | nil => exact h
  | cons e rest ih =>
    obtain ⟨sm, em⟩ := acc
    obtain ⟨entry, score⟩ := e
    rw [rrfProcess]
    apply ih
    intro p hp
    rcases mem_dictSet_cases hp with rfl | hp'
    · rfl
    · exact h p hp'

/-- Every id with a score also has an entry: the two dictionaries are
updated in lockstep. -/
theorem rrfProcess_keys_sub (kconst : Nat) (r : Nat) (l : List (MemoryEntry × ℚ))
    (acc : ScoreMap × EntryMap)
    (h : ∀ j, j ∈ acc.1.map Prod.fst → j ∈ acc.2.map Prod.fst) :
    ∀ j, j ∈ (rrfProcess kconst r l acc).1.map Prod.fst →
      j ∈ (rrfProcess kconst r l acc).2.map Prod.fst := by
  induction l generalizing r acc with
  | nil => exact h
  | cons e rest ih =>
    obtain ⟨sm, em⟩ := acc
    obtain ⟨entry, score⟩ := e
    rw [rrfProcess]
    apply ih
    intro j hj
    rcases mem_keys_dictSet_iff.mp hj with rfl | hj'
    · exact mem_keys_dictSet_iff.mpr (Or.inl rfl)
    · exact mem_keys_dictSet_iff.mpr (Or.inr (h j hj'))

theorem entriesGet_id {em : EntryMap} {i : String}
    (hwf : ∀ p ∈ em, p.2.id = p.1) (hmem : i ∈ em.map Prod.fst) :
    (entriesGet em i).id = i := by
  have hs := dict_find_isSome_of_mem_keys hmem
  cases hf : em.find? (fun p => p.1 == i) with
  | none => rw [dictFind?, hf] at hs; simp at hs
  | some p =>
    have hp := List.mem_of_find?_eq_some hf
    have hfs := List.find?_some hf
    have hpi : p.1 = i := by simpa [beq_iff_eq] using hfs
    rw [entriesGet, dictFind?, hf]
    simpa using (hwf p hp).trans hpi

/-- Every id with a fused score is mapped by the entry dictionary to an
entry carrying exactly that id. -/
theorem rrfMaps_entriesGet_id (kconst : Nat) (l1 l2 : List (MemoryEntry × ℚ)) {i : String}
    (hkeys : i ∈ (rrfMaps kconst l1 l2).1.map Prod.fst) :
    (entriesGet (rrfMaps kconst l1 l2).2 i).id = i := by
  have hemem : i ∈ (rrfMaps kconst l1 l2).2.map Prod.fst := by
    apply rrfProcess_keys_sub kconst 0 l2 (rrfProcess kconst 0 l1 ([], []))
    · exact rrfProcess_keys_sub kconst 0 l1 ([], []) (by intro j hj; simp at hj)
    · exact hkeys
  exact entriesGet_id
    (rrfProcess_entries_id kconst 0 l2 (rrfProcess kconst 0 l1 ([], []))
      (rrfProcess_entries_id kconst 0 l1 ([], []) (by intro p hp; simp at hp)))
    hemem

/-- The entry ids of the fused output are exactly the sorted score keys. -/
theorem rrfFusion_map_id (kconst : Nat) (l1 l2 : List (MemoryEntry × ℚ)) :
    (rrfFusion kconst l1 l2).map (fun t => t.1.id) = rrfSortedIds kconst l1 l2 := by
  have hids : ∀ i ∈ rrfSortedIds kconst l1 l2,
      (entriesGet (rrfMaps kconst l1 l2).2 i).id = i := by
    intro i hi
    exact rrfMaps_entriesGet_id kconst l1 l2
      (by simpa [rrfSortedIds, mem_stableSortDescBy] using hi)
  rw [rrfFusion, List.map_map]
  calc (rrfSortedIds kconst l1 l2).map
        ((fun t : MemoryEntry × ℚ × String => t.1.id) ∘ fun i =>
          (entriesGet (rrfMaps kconst l1 l2).2 i, dictGetD (rrfMaps kconst l1 l2).1 i 0,
            rrfSourceOf l1 l2 i))
      = (rrfSortedIds kconst l1 l2).map (fun i => i) := List.map_congr_left hids
    _ = rrfSortedIds kconst l1 l2 := List.map_id _

end RrfLemmas

/-- C7 (amended): the fusion sorts ids by cumulative score with a stable
descending sort, so whenever two ids have equal fused scores they keep
their first-appearance order (lexical list in rank order first, then new
ids from the semantic list) in the fused output; no timestamp is
consulted, and the ordering is deterministic in the inputs. -/
theorem rrf_tie_stable_order (kconst : Nat) (l1 l2 : List (MemoryEntry × ℚ))
    (a b : String)
    (hab : dictGetD (rrfMaps kconst l1 l2).1 a 0 = dictGetD (rrfMaps kconst l1 l2).1 b 0)
    (hsub : [a, b].Sublist ((rrfMaps kconst l1 l2).1.map Prod.fst)) :
    [a, b].Sublist ((rrfFusion kconst l1 l2).map (fun t => t.1.id)) := by
  rw [rrfFusion_map_id]
  exact pair_sublist_stableSortDescBy hab hsub

/-- Closed instance of the stable tie-break: in the counterexample input
the equal-scored ids keep the order lexical-first, semantic-second. -/
theorem rrf_tie_stable_order_witness :
    [("A" : String), "B"].Sublist
      ((rrfFusion 60 [(exOldA, 9/10)] [(exNewB, 9/10)]).map (fun t => t.1.id)) :=
  rrf_tie_stable_order 60 [(exOldA, 9/10)] [(exNewB, 9/10)] "A" "B" rfl (by decide)

section StoreLemmas

/-- Finding by hash commutes with the timestamp refresh: the refresh
changes no hash, so the found row is the refreshed original. -/
theorem refresh_find (rows : List MemRow) (h : String) (t : Nat) :
    (rows.map (fun r => if r.content_hash == h then { r with timestamp := t } else r)).find?
        (fun r => r.content_hash == h)
      = (rows.find? (fun r => r.content_hash == h)).map
          (fun r => { r with timestamp := t }) := by
  induction rows with
  | nil => rfl
  | cons r rest ih =>
    cases hr : (r.content_hash == h) with
    | true =>
      simp only [List.map_cons, hr, if_true, List.find?]
      rfl
    | false =>
      simp only [List.map_cons, hr, Bool.false_eq_true, if_false, List.find?]
      exact ih

/-- The timestamp refresh changes no hash, so hash counts are stable. -/
theorem refresh_countP (rows : List MemRow) (h : String) (t : Nat) :
    (rows.map (fun q => if q.content_hash == h then { q with timestamp := t } else q)).countP
        (fun r => r.content_hash == h)
      = rows.countP (fun r => r.content_hash == h) := by
  rw [List.countP_map]
  apply List.countP_congr
  intro q _
  cases hb : (q.content_hash == h) with
  | true => simp [Function.comp, hb]
  | false => simp [Function.comp, hb]

/-- After the refresh every row carrying the hash has the new timestamp. -/
theorem refresh_timestamp (rows : List MemRow) (h : String) (t : Nat) :
    ∀ r ∈ rows.map (fun q => if q.content_hash == h then { q with timestamp := t } else q),
      r.content_hash = h → r.timestamp = t := by
  intro r hr hh
  rcases List.mem_map.mp hr with ⟨q, hq, hqe⟩
  cases hb : (q.content_hash == h) with
  | true =>
    simp only [hb, if_true] at hqe
    rw [← hqe]
  | false =>
    simp only [hb, Bool.false_eq_true, if_false] at hqe
    rw [← hqe] at hh
    exact absurd hh (by simpa [beq_eq_false_iff_ne] using hb)

/-- Outcome of `store` on the dedup path: the existing row's timestamp is
refreshed and the pre-refresh row is returned as the entry. -/
theorem storeMem_dedup (hash : List Char → String) (size overlap : Nat) (embModel : String)
    (st : GraphState) (freshId : String) (now : Nat) (content : List Char)
    (metadata : List (String × String)) (mtype : MemoryType) (row : MemRow)
    (hfind : st.rows.find? (fun r => r.content_hash == hash content) = some row) :
    storeMem hash size overlap embModel st freshId now content metadata mtype
      = .ok (rowToEntry row,
          ⟨st.rows.map fun r =>
            if r.content_hash == hash content then { r with timestamp := now } else r⟩) := by
  simp only [storeMem, hfind]

end StoreLemmas

/-- C1 (amended): for content of at most the chunk size (a single chunk),
re-storing is idempotent: if the first `store` succeeds then the second
also succeeds, both return the same id, the second creates no new row,
afterwards exactly one row carries the content's hash, and that row's
timestamp is refreshed to the second store's time. (For multi-chunk
content the second store returns the first chunk's row, whose id has a
`_chunk0` suffix, so the ids differ there.) -/
theorem store_idempotent_single_chunk (hash : List Char → String) (size overlap : Nat)
    (embModel : String) (st : GraphState) (id1 id2 : String) (t1 t2 : Nat)
    (content : List Char) (metadata : List (String × String)) (mtype : MemoryType)
    (e1 : MemoryEntry) (st1 : GraphState)
    (hshort : content.length ≤ size)
    (hcount : st.rows.countP (fun r => r.content_hash == hash content) ≤ 1)
    (hok : storeMem hash size overlap embModel st id1 t1 content metadata mtype
      = .ok (e1, st1)) :
    ∃ e2 st2,
      storeMem hash size overlap embModel st1 id2 t2 content metadata mtype = .ok (e2, st2)
      ∧ e2.id = e1.id
      ∧ st2.rows.length = st1.rows.length
      ∧ st2.rows.countP (fun r => r.content_hash == hash content) = 1
      ∧ (∀ r ∈ st2.rows, r.content_hash = hash content → r.timestamp = t2) := by
  cases hfind : st.rows.find? (fun r => r.content_hash == hash content) with
  | some row =>
    rw [storeMem_dedup hash size overlap embModel st id1 t1 content metadata mtype row hfind]
      at hok
    simp only [Except.ok.injEq, Prod.mk.injEq] at hok
    obtain ⟨he1, hst1⟩ := hok
    have hrows1 : st1.rows = st.rows.map
        (fun r => if r.content_hash == hash content then { r with timestamp := t1 } else r) := by
      rw [← hst1]
    have hfind1 : st1.rows.find? (fun r => r.content_hash == hash content)
        = some { row with timestamp := t1 } := by
      rw [hrows1, refresh_find, hfind]
      rfl
    refine ⟨rowToEntry { row with timestamp := t1 }, _,
      storeMem_dedup hash size overlap embModel st1 id2 t2 content metadata mtype
        { row with timestamp := t1 } hfind1, ?_, ?_, ?_, ?_⟩
    · rw [← he1]
      rfl
    · simp
    · show (st1.rows.map _).countP _ = 1
      rw [refresh_countP, hrows1, refresh_countP]
      have hp := List.find?_some hfind
      have hpos : 0 < st.rows.countP (fun r => r.content_hash == hash content) :=
        List.countP_pos_iff.mpr ⟨row, List.mem_of_find?_eq_some hfind, hp⟩
      omega
    · exact refresh_timestamp st1.rows (hash content) t2
  | none =>
    simp only [storeMem, hfind] at hok
    rw [if_neg (by omega : ¬ size < content.length)] at hok
    have hrows0 : chunkRowsOf hash embModel id1 (hash content) metadata t1 mtype [content]
        = [⟨id1, content, hash content, metadata, none, t1, mtype, some embModel⟩] := rfl
    rw [hrows0] at hok
    split at hok
    · exact absurd hok (by simp)
    next st' hins =>
      simp only [Except.ok.injEq, Prod.mk.injEq] at hok
      obtain ⟨he1, hst1⟩ := hok
      simp only [insertRows] at hins
      split at hins
      · exact absurd hins (by simp)
      next st'' hir =>
        have hst'' : st'' = st' := by simpa [insertRows] using hins
        rw [insertRow] at hir
        split at hir
        · exact absurd hir (by simp)
        next hany =>
          have hst' : st' = ⟨st.rows
              ++ [⟨id1, content, hash content, metadata, none, t1, mtype, some embModel⟩]⟩ := by
            rw [← hst'']
            simpa using hir.symm
          have hrows1 : st1.rows = st.rows
              ++ [⟨id1, content, hash content, metadata, none, t1, mtype, some embModel⟩] := by
            rw [← hst1, hst']
          have hone : ([(⟨id1, content, hash content, metadata, none, t1, mtype,
              some embModel⟩ : MemRow)].find? (fun r => r.content_hash == hash content))
              = some ⟨id1, content, hash content, metadata, none, t1, mtype, some embModel⟩ := by
            simp [List.find?]
          have hfind1 : st1.rows.find? (fun r => r.content_hash == hash content)
              = some ⟨id1, content, hash content, metadata, none, t1, mtype, some embModel⟩ := by
            rw [hrows1, List.find?_append, hfind, hone]
            rfl
          refine ⟨rowToEntry ⟨id1, content, hash content, metadata, none, t1, mtype,
              some embModel⟩, _,
            storeMem_dedup hash size overlap embModel st1 id2 t2 content metadata mtype
              _ hfind1, ?_, ?_, ?_, ?_⟩
          · rw [← he1]
            rfl
          · simp
          · show (st1.rows.map _).countP _ = 1
            rw [refresh_countP, hrows1, List.countP_append]
            have hz : st.rows.countP (fun r => r.content_hash == hash content) = 0 :=
              List.countP_eq_zero.mpr (List.find?_eq_none.mp hfind)
            rw [hz]
            simp
          · exact refresh_timestamp st1.rows (hash content) t2

/-- Closed instance of single-chunk idempotence: storing "hi" twice into
an empty store returns id `N` both times and leaves one row, refreshed. -/
theorem store_idempotent_single_chunk_witness :
    ∃ e2 st2,
      storeMem strHash 500 50 "mxbai-embed-large"
          (match storeMem strHash 500 50 "mxbai-embed-large" ⟨[]⟩ "N" 0 ['h', 'i'] [] .note with
            | .ok p => p.2
            | .error _ => ⟨[]⟩) "M" 1 ['h', 'i'] [] .note = .ok (e2, st2)
      ∧ e2.id = "N"
      ∧ st2.rows.length = 1
      ∧ st2.rows.countP (fun r => r.content_hash == strHash ['h', 'i']) = 1
      ∧ (∀ r ∈ st2.rows, r.content_hash = strHash ['h', 'i'] → r.timestamp = 1) := by
  have h := store_idempotent_single_chunk strHash 500 50 "mxbai-embed-large" ⟨[]⟩ "N" "M"
    0 1 ['h', 'i'] [] .note
    ⟨"N", ['h', 'i'], strHash ['h', 'i'], [], 0, .note, some "mxbai-embed-large"⟩
    ⟨[⟨"N", ['h', 'i'], strHash ['h', 'i'], [], none, 0, .note, some "mxbai-embed-large"⟩]⟩
    (by decide) (by decide) rfl
  obtain ⟨e2, st2, hstore, hid, hlen, hcnt, hts⟩ := h
  exact ⟨e2, st2, by rw [← hstore]; rfl, by rw [hid], by rw [hlen]; rfl, hcnt, hts⟩

section ChunkLemmas

/-- Splitting a text without a paragraph separator returns the single
piece made of the accumulator and the text. -/
theorem splitParasAux_no_sep (l : List Char) :
    ∀ acc, hasParaSep l = false → splitParasAux l acc = [acc.reverse ++ l] := by
  induction l with
  | nil => intro acc _; simp [splitParasAux]
  | cons c rest ih =>
    intro acc h
    cases rest with
    | nil => simp [splitParasAux]
    | cons c2 rest2 =>
      by_cases hcond : c = '\n' ∧ c2 = '\n'
      · rw [hasParaSep, if_pos hcond] at h
        exact Bool.noConfusion h
      · rw [hasParaSep, if_neg hcond] at h
        rw [splitParasAux, if_neg hcond, ih (c :: acc) h]
        simp

/-- The sliding-window chunks, with each chunk's leading `overlap`
characters removed, concatenate to the text minus its first `overlap`
characters. -/
theorem slidingChunksFuel_drop_flatten (size overlap : Nat) (hov : overlap < size) :
    ∀ (fuel : Nat) (text : List Char), text.length ≤ fuel →
      ((slidingChunksFuel size (size - overlap) fuel text).map (List.drop overlap)).flatten
        = text.drop overlap := by
  intro fuel
  induction fuel with
  | zero =>
    intro text hlen
    have : text = [] := List.eq_nil_of_length_eq_zero (Nat.le_zero.mp hlen)
    subst this
    simp [slidingChunksFuel]
  | succ f ih =>
    intro text hlen
    cases text with
    | nil => simp [slidingChunksFuel]
    | cons c rest =>
      rw [slidingChunksFuel, List.map_cons, List.flatten_cons]
      have hstep : 1 ≤ size - overlap := by omega
      have hlen' : ((c :: rest).drop (size - overlap)).length ≤ f := by
        rw [List.length_drop]
        simp only [List.length_cons] at hlen ⊢
        omega
      rw [ih ((c :: rest).drop (size - overlap)) hlen']
      rw [List.drop_drop, List.drop_take]
      have hso : size - overlap + overlap = size := by omega
      have hos : overlap + (size - overlap) = size := by omega
      rw [hso]
      calc ((c :: rest).drop overlap).take (size - overlap)
            ++ (c :: rest).drop size
          = ((c :: rest).drop overlap).take (size - overlap)
            ++ ((c :: rest).drop overlap).drop (size - overlap) := by
            rw [List.drop_drop, hos]
        _ = (c :: rest).drop overlap := List.take_append_drop _ _

/-- Reconstruction is exact on the sliding-window path. -/
theorem sliding_reconstruct (size overlap : Nat) (text : List Char)
    (hov : overlap < size) (hne : text ≠ []) :
    reconstruct overlap (slidingChunks size overlap text) = text := by
  cases text with
  | nil => exact absurd rfl hne
  | cons c rest =>
    rw [slidingChunks]
    show reconstruct overlap
      (slidingChunksFuel size (size - overlap) (rest.length + 1) (c :: rest)) = _
    rw [slidingChunksFuel, reconstruct]
    have hstep : 1 ≤ size - overlap := by omega
    have hlen' : ((c :: rest).drop (size - overlap)).length ≤ rest.length := by
      rw [List.length_drop]
      simp only [List.length_cons]
      omega
    rw [slidingChunksFuel_drop_flatten size overlap hov rest.length _ hlen']
    rw [List.drop_drop]
    have hso : size - overlap + overlap = size := by omega
    rw [hso]
    exact List.take_append_drop _ _

/-- C3 (amended): for content with no paragraph boundary (no two
consecutive newlines) that is longer than the chunk size, with the overlap
smaller than the chunk size, the chunker uses the fixed sliding window and
removing each chunk's leading `overlap`-character prefix (every chunk
except the first) and concatenating the remainders reconstructs the
original content exactly; in particular this holds for content of length
5000 with chunk size 500 and overlap 50. -/
theorem chunk_roundtrip_sliding (size overlap : Nat) (text : List Char)
    (hov : overlap < size) (hlen : size < text.length)
    (hsep : hasParaSep text = false) :
    reconstruct overlap (chunkContent size overlap text) = text := by
  have hsplit : pySplitParas text = [text] := by
    rw [pySplitParas, splitParasAux_no_sep text [] hsep]
    rfl
  rw [chunkContent, if_neg (by omega)]
  simp only [hsplit]
  rw [if_pos (by constructor <;> simp [List.headI, hlen])]
  simp only [List.headI]
  exact sliding_reconstruct size overlap text hov (by intro h; subst h; simp at hlen)

/-- Paragraph-free content used by the round-trip witness. -/
theorem hasParaSep_replicate_x (n : Nat) :
    hasParaSep (List.replicate n 'x') = false := by
  induction n with
  | zero => rfl
  | succ m ih =>
    cases m with
    | zero => rfl
    | succ k =>
      show hasParaSep ('x' :: 'x' :: List.replicate k 'x') = false
      rw [hasParaSep, if_neg (by decide)]
      exact ih

end ChunkLemmas

/-- Closed instance of the amended round-trip at the dimensions named by
the specification: length-5000 paragraph-free content, chunk size 500,
overlap 50. -/
theorem chunk_roundtrip_sliding_witness :
    reconstruct 50 (chunkContent 500 50 (List.replicate 5000 'x'))
      = List.replicate 5000 'x' :=
  chunk_roundtrip_sliding 500 50 (List.replicate 5000 'x') (by decide)
    (by rw [List.length_replicate]; norm_num) (hasParaSep_replicate_x 5000)

/-- Stable descending three-element sort under the comparisons produced
by the concrete example. -/
theorem stableSort_three (f : String → ℚ) (h1 : f "C" ≤ f "B") (h2 : ¬ f "B" ≤ f "A")
    (h3 : f "C" ≤ f "A") :
    stableSortDescBy f ["A", "B", "C"] = ["B", "A", "C"] := by
  simp only [stableSortDescBy, stableInsertBy, if_pos h1, if_neg h2, if_pos h3]

/-- General form of the fused-score formula, used by the score claim. -/
theorem rrfFusion_score_general (kconst : Nat) (l1 l2 : List (MemoryEntry × ℚ))
    (hnd1 : (l1.map (fun p => p.1.id)).Nodup) (hnd2 : (l2.map (fun p => p.1.id)).Nodup)
    (e : MemoryEntry) (s : ℚ) (src : String) (hmem : (e, s, src) ∈ rrfFusion kconst l1 l2) :
    s = specListContrib kconst l1 e.id + specListContrib kconst l2 e.id := by
  rw [rrfFusion] at hmem
  rcases List.mem_map.mp hmem with ⟨i, hi, heq⟩
  simp only [Prod.mk.injEq] at heq
  obtain ⟨he, hs, -⟩ := heq
  have hkeys : i ∈ (rrfMaps kconst l1 l2).1.map Prod.fst := by
    simpa [rrfSortedIds, mem_stableSortDescBy] using hi
  subst hs
  subst he
  rw [rrfMaps_entriesGet_id kconst l1 l2 hkeys]
  show dictGetD (rrfProcess kconst 0 l2 (rrfProcess kconst 0 l1 ([], []))).1 i 0 = _
  rw [rrfProcess_score kconst 0 l2 _ i hnd2, rrfProcess_score kconst 0 l1 _ i hnd1]
  show dictGetD ([] : ScoreMap) i 0 + _ + _ = _
  rw [show dictGetD ([] : ScoreMap) i 0 = 0 from rfl, zero_add]
  rfl

/-- Score of one id in the concrete example, computed through the general
per-list contribution formula. -/
theorem rrfMaps_ex_score (i : String) :
    dictGetD (rrfMaps 60 exLex exSem).1 i 0
      = specListContrib 60 exLex i + specListContrib 60 exSem i := by
  show dictGetD (rrfProcess 60 0 exSem (rrfProcess 60 0 exLex ([], []))).1 i 0 = _
  rw [rrfProcess_score 60 0 exSem _ i (by decide), rrfProcess_score 60 0 exLex _ i (by decide)]
  show dictGetD ([] : ScoreMap) i 0 + _ + _ = _
  rw [show dictGetD ([] : ScoreMap) i 0 = 0 from rfl, zero_add]
  rfl

/-- C2: in the fused output of two duplicate-free ranked lists, every
entry's score is the sum over the input lists of a single `1 / (rank + k)`
contribution at the entry's rank (counted from 0), lists not containing
the entry contributing nothing; and on the concrete example — lexical
`[A, B, C]`, semantic `[B, C, A]`, `k = 60` — the scores are exactly
`1/61 + 1/60` for `B`, `1/60 + 1/62` for `A`, `1/62 + 1/61` for `C`, with
fused order `B, A, C`. -/
theorem rrf_score_formula :
    (∀ (kconst : Nat) (l1 l2 : List (MemoryEntry × ℚ)),
      (l1.map (fun p => p.1.id)).Nodup → (l2.map (fun p => p.1.id)).Nodup →
      ∀ e s src, (e, s, src) ∈ rrfFusion kconst l1 l2 →
        s = specListContrib kconst l1 e.id + specListContrib kconst l2 e.id)
  ∧ rrfFusion 60 exLex exSem
      = [(exEntryB, 1/61 + 1/60, "hybrid"), (exEntryA, 1/60 + 1/62, "hybrid"),
         (exEntryC, 1/62 + 1/61, "hybrid")] := by
  have hA : dictGetD (rrfMaps 60 exLex exSem).1 "A" 0 = 1/60 + 1/62 := by
    rw [rrfMaps_ex_score "A"]
    simp [specListContrib, specListContribFrom, exLex, exSem, exEntryA, exEntryB, exEntryC]
    norm_num
  have hB : dictGetD (rrfMaps 60 exLex exSem).1 "B" 0 = 1/61 + 1/60 := by
    rw [rrfMaps_ex_score "B"]
    simp [specListContrib, specListContribFrom, exLex, exSem, exEntryA, exEntryB, exEntryC]
    norm_num
  have hC : dictGetD (rrfMaps 60 exLex exSem).1 "C" 0 = 1/62 + 1/61 := by
    rw [rrfMaps_ex_score "C"]
    simp [specListContrib, specListContribFrom, exLex, exSem, exEntryA, exEntryB, exEntryC]
    norm_num
  constructor
  · exact rrfFusion_score_general
  · have hkeys : (rrfMaps 60 exLex exSem).1.map Prod.fst = ["A", "B", "C"] := rfl
    have hem : (rrfMaps 60 exLex exSem).2
        = [("A", exEntryA), ("B", exEntryB), ("C", exEntryC)] := rfl
    have hsorted : rrfSortedIds 60 exLex exSem = ["B", "A", "C"] := by
      simp only [rrfSortedIds]
      rw [hkeys]
      refine stableSort_three _ ?_ ?_ ?_
      · rw [hB, hC]; norm_num
      · rw [hA, hB]; norm_num
      · rw [hA, hC]; norm_num
    simp only [rrfFusion]
    rw [hsorted]
    simp only [List.map_cons, List.map_nil, hem]
    rw [hA, hB, hC]
    simp [entriesGet, dictGetD, dictFind?, List.find?, rrfSourceOf, exLex, exSem,
      exEntryA, exEntryB, exEntryC, instBEqOfDecidableEq]

/-- Closed instance of the score formula at entry `B` of the concrete
example: its fused score `1/61 + 1/60` is the sum of its per-list
contributions. -/
theorem rrf_score_formula_witness :
    ((1 : ℚ)/61 + 1/60)
      = specListContrib 60 exLex exEntryB.id + specListContrib 60 exSem exEntryB.id :=
  rrf_score_formula.1 60 exLex exSem (by decide) (by decide) exEntryB (1/61 + 1/60) "hybrid"
    (by rw [rrf_score_formula.2]; exact List.mem_cons_self _ _)

set_option maxRecDepth 10000 in
/-- C7 counterexample: fusing lexical `[A]` (timestamp 0) with semantic
`[B]` (timestamp 100) gives both entries the same fused score `1/60`, yet
the output orders `A` before `B`: ties follow first-appearance order, not
the most-recent-timestamp order the claim states. -/
theorem rrf_tie_timestamp_counterexample :
    (rrfFusion 60 [(exOldA, 9/10)] [(exNewB, 9/10)]
      = [(exOldA, 1/60, "fts"), (exNewB, 1/60, "semantic")])
  ∧ exOldA.timestamp < exNewB.timestamp := by
  refine ⟨?_, by decide⟩
  norm_num [rrfFusion, rrfMaps, rrfProcess, rrfSortedIds, rrfSourceOf, dictSet, dictContains,
    dictGetD, dictFind?, stableSortDescBy, stableInsertBy, entriesGet, exOldA, exNewB]
  simp

end NeuraOS
